import Mathlib

set_option linter.unusedSectionVars false

/-!
Verification of the Lennard-Jones molecular-dynamics engine in
`Tutorials/12_MD/12a_basics.ipynb` (classes `MDSimulation` and
`MDSimulationSwitch`).

The embedding is generic over a linear ordered field with a floor, so the
same definitions serve exact evaluation (`ℚ`) and calculus (`ℝ`).
Two-dimensional vectors are modelled as pairs `K × K` with componentwise
arithmetic, matching the shape-(·,2) numpy arrays of the source.
-/

namespace MD

variable {K : Type*} [LinearOrderedField K] [FloorRing K]

/-- Componentwise dot product of two 2D vectors:
`np.einsum('ab,ab->a', dR, dR)` for a single row. -/
def dot (a b : K × K) : K := a.1 * b.1 + a.2 * b.2

/-- One scalar component of the minimum image map:
`x - boxlength*np.floor(x*boxinv+0.5)` (`boxinv = 1/boxlength`). -/
def mim (L x : K) : K := x - L * ⌊x * L⁻¹ + 1/2⌋

/-- `MDSimulation.apply_periodicity`: minimum image convention,
`dR -= boxlength*np.floor(dR*boxinv+0.5)` applied per component. -/
def applyPeriodicity (L : K) (d : K × K) : K × K :=
  (mim L d.1, mim L d.2)

/-- `itertools.combinations(range(n), 2)` as used in `MDSimulation.__init__`:
for each `i` in `range(n)`, the pairs `(i, j)` for `j` in `range(i+1, n)`,
in the generator's lexicographic order. -/
def pairsN (n : ℕ) : List (ℕ × ℕ) :=
  (List.range n).flatMap (fun i => (List.range' (i+1) (n - (i+1))).map (fun j => (i, j)))

/-- The constructor arguments of `MDSimulation` (plotting-only fields
excluded; `nsteps` and `temp` do not enter the evaluator or integrator
formulas verified here). -/
structure Params (K : Type*) where
  sigma : K
  epsilon : K
  mass : K
  dt : K
  atoms_per_dim : ℕ
  boxlength : K
  cutoff : K

/-- `self.cutoff2 = self.cutoff**2`. -/
def Params.cutoff2 (P : Params K) : K := P.cutoff ^ 2

/-- `self.foureps = 4.0*self.epsilon`. -/
def Params.foureps (P : Params K) : K := 4 * P.epsilon

/-- `self.natoms = self.atoms_per_dim**2`. -/
def Params.natoms (P : Params K) : ℕ := P.atoms_per_dim ^ 2

/-- `self.sigmaij = 2.0*self.sigma`. -/
def Params.sigmaij (P : Params K) : K := 2 * P.sigma

/-- `self.sig2 = self.sigmaij**2`. -/
def Params.sig2 (P : Params K) : K := P.sigmaij ^ 2

/-- `self.minv = 1.0/self.mass`. -/
def Params.minv (P : Params K) : K := P.mass⁻¹

/-- `ron2 = (self.cutoff-self.window)**2` in
`compute_energy_and_gradient_switch`. -/
def Params.ron2 (P : Params K) (w : K) : K := (P.cutoff - w) ^ 2

/-- `denom = 1.0 / (roff2 - ron2)**3` in
`compute_energy_and_gradient_switch` (`roff2 = self.cutoff2`). -/
def Params.swdenom (P : Params K) (w : K) : K := ((P.cutoff2 - P.ron2 w) ^ 3)⁻¹

/-- Scalar pair quantities of `compute_energy_and_gradient_cutoff` as a
function of the squared pair distance `u`: returns
`(pairenergies, 6*r2inv*(repulsive+pairenergies))`, i.e. the pair energy
and the scalar multiplying `dR` in `pairforces`.  `r2inv` is `1/u` zeroed
beyond the cutoff (`r2inv[r2>cutoff2] = 0.0`). -/
def cutoffPair (sig2 foureps cutoff2 : K) (u : K) : K × K :=
  let r2inv := if cutoff2 < u then 0 else u⁻¹
  let sig_r2 := sig2 * r2inv
  let sig_r6 := sig_r2 * sig_r2 * sig_r2
  let sig_r12 := sig_r6 * sig_r6
  let repulsive := foureps * sig_r12
  let attractive := foureps * sig_r6
  let pairenergy := repulsive - attractive
  (pairenergy, 6 * r2inv * (repulsive + pairenergy))

/-- The switching factor of `compute_energy_and_gradient_switch`:
`np.where(r2>ron2, (roff2 + 2.0*r2 - 3.0*ron2)*(roff2 - r2)**2 * denom, 1.0)`
followed by `switch[r2>self.cutoff2] = 0.0`. -/
def switchF (cutoff2 ron2 denom : K) (u : K) : K :=
  if cutoff2 < u then 0
  else if ron2 < u then (cutoff2 + 2*u - 3*ron2) * (cutoff2 - u)^2 * denom
  else 1

/-- The switching-derivative factor of `compute_energy_and_gradient_switch`:
`np.where(r2>ron2, -12.0*(r2 - roff2)*(r2 - ron2) * denom, 0.0)`
followed by `dswitch[r2>self.cutoff2] = 0.0`. -/
def dswitchF (cutoff2 ron2 denom : K) (u : K) : K :=
  if cutoff2 < u then 0
  else if ron2 < u then -12 * (u - cutoff2) * (u - ron2) * denom
  else 0

/-- Scalar pair quantities of `compute_energy_and_gradient_switch` as a
function of the squared pair distance `u`: returns
`(switch*(rep-att), 6.0*r2inv*switch*(2.0*rep-att) + dswitch*(rep-att))`.
Here `r2inv = 1/u` with no zeroing (the switch factors vanish beyond the
cutoff instead). -/
def switchPair (sig2 foureps cutoff2 ron2 denom : K) (u : K) : K × K :=
  let r2inv := u⁻¹
  let switch := switchF cutoff2 ron2 denom u
  let dswitch := dswitchF cutoff2 ron2 denom u
  let sig_r2 := sig2 * r2inv
  let sig_r6 := sig_r2 * sig_r2 * sig_r2
  let sig_r12 := sig_r6 * sig_r6
  let rep := foureps * sig_r12
  let att := foureps * sig_r6
  (switch * (rep - att), 6 * r2inv * switch * (2*rep - att) + dswitch * (rep - att))

/-- The evaluation mode: the base class `MDSimulation` (hard cutoff) or the
derived `MDSimulationSwitch` with its `window` argument. -/
inductive LJMode (K : Type*) where
  | cutoff : LJMode K
  | switched : K → LJMode K

/-- Scalar pair quantities of the selected evaluator.
`MDSimulationSwitch.compute_energy_and_gradient` dispatches on
`if self.window == 0` to the inherited cutoff method. -/
def pairQ (P : Params K) : LJMode K → K → K × K
  | .cutoff => fun u => cutoffPair P.sig2 P.foureps P.cutoff2 u
  | .switched w => fun u =>
      if w = 0 then cutoffPair P.sig2 P.foureps P.cutoff2 u
      else switchPair P.sig2 P.foureps P.cutoff2 (P.ron2 w) (P.swdenom w) u

/-- `dR = self.apply_periodicity(coords[jindices] - coords[iindices])`
for one pair `p = (i, j)`. -/
def dispVec (P : Params K) (coords : ℕ → K × K) (p : ℕ × ℕ) : K × K :=
  applyPeriodicity P.boxlength (coords p.2 - coords p.1)

/-- `r2 = np.einsum('ab,ab->a', dR, dR)` for one pair. -/
def pairR2 (P : Params K) (coords : ℕ → K × K) (p : ℕ × ℕ) : K :=
  dot (dispVec P coords p) (dispVec P coords p)

/-- The contribution of pair `p` to the output row `k` of `forces`:
the accumulation loop `forces[iind] += pairforces[n]; forces[jind] -= pairforces[n]`. -/
def forceContrib (P : Params K) (mode : LJMode K) (coords : ℕ → K × K)
    (p : ℕ × ℕ) (k : ℕ) : K × K :=
  let dR := dispVec P coords p
  let c := (pairQ P mode (pairR2 P coords p)).2
  (if k = p.1 then c • dR else 0) - (if k = p.2 then c • dR else 0)

/-- `compute_energy_and_gradient` of the selected class: total energy
`pairenergies.sum()` and the accumulated per-atom array `forces`. -/
def evaluate (P : Params K) (mode : LJMode K) (n : ℕ) (coords : ℕ → K × K) :
    K × (ℕ → K × K) :=
  (((pairsN n).map (fun p => (pairQ P mode (pairR2 P coords p)).1)).sum,
   fun k => ((pairsN n).map (fun p => forceContrib P mode coords p k)).sum)

/-- The persistent state mutated by `MDSimulation.propagate` (plot objects
excluded). -/
structure MDState (K : Type*) where
  coords : ℕ → K × K
  last_coords : ℕ → K × K
  timestep : K
  timeseries : List K
  PEs : List K
  KEs : List K
  TEs : List K

/-- `MDSimulation.propagate`, with the evaluator selected by `mode`:
Verlet step `newcoords = 2*coords - last_coords + dt*dt*a` with
`a = -minv*gradient`, central-difference velocity, kinetic energy,
history shift, time increment and the four appends.  The plotting lines
(including the `displaycoords` throwaway copy) have no effect on this
state and are omitted. -/
def propagate (P : Params K) (mode : LJMode K) (st : MDState K) : MDState K :=
  let PE := (evaluate P mode P.natoms st.coords).1
  let gradient := (evaluate P mode P.natoms st.coords).2
  let a := fun k => (-P.minv) • gradient k
  let newcoords := fun k =>
    (2 : K) • st.coords k - st.last_coords k + (P.dt * P.dt) • a k
  let v := fun k => (2 * P.dt)⁻¹ • (newcoords k - st.last_coords k)
  let KE := 1/2 * P.mass * ((List.range P.natoms).map (fun k => dot (v k) (v k))).sum
  { coords := newcoords
    last_coords := st.coords
    timestep := st.timestep + P.dt
    timeseries := st.timeseries ++ [st.timestep + P.dt]
    PEs := st.PEs ++ [PE]
    KEs := st.KEs ++ [KE]
    TEs := st.TEs ++ [PE + KE] }

/-- The position recurrence of `propagate` on the history pair
`(last_coords, coords)`, with all bookkeeping stripped: one Verlet step. -/
def verletStep (P : Params K) (mode : LJMode K)
    (s : (ℕ → K × K) × (ℕ → K × K)) : (ℕ → K × K) × (ℕ → K × K) :=
  (s.2, fun k =>
    (2 : K) • s.2 k - s.1 k +
      (P.dt * P.dt) • ((-P.minv) • (evaluate P mode P.natoms s.2).2 k))

/-- The constructor guard of `MDSimulation.__init__`:
`if(cutoff >= boxlength/2.0): raise ValidationError(...)`.  Returns the
error message of the source's raise statement, or `()` when construction
may proceed to the bootstrap step. -/
def checkCutoff (boxlength cutoff : K) : Except String Unit :=
  if boxlength / 2 ≤ cutoff then
    Except.error "The cutoff must be less than boxlength/2"
  else Except.ok ()

/-- Translating a single particle: `coords[m] += v`, all other rows kept. -/
def shiftAtom (coords : ℕ → K × K) (m : ℕ) (v : K × K) : ℕ → K × K :=
  Function.update coords m (coords m + v)

/-- The in-range Lennard-Jones pair energy as an explicit function of the
squared distance `u`: the value taken by `cutoffPair`'s energy entry when
`u ≤ cutoff2` (and by the switch evaluator's `rep - att`). -/
def lj (sig2 foureps : K) (u : K) : K :=
  foureps * (sig2 * u⁻¹)^6 - foureps * (sig2 * u⁻¹)^3

/-- The polynomial branch of the switching factor. -/
def swpoly (cutoff2 ron2 denom : K) (u : K) : K :=
  (cutoff2 + 2*u - 3*ron2) * (cutoff2 - u)^2 * denom

/-- Nondegeneracy of a squared pair distance for the selected mode: away
from zero separation, from the cutoff discontinuity surface and (in
switched mode) from the inner switching boundary. -/
def regularU (P : Params K) (mode : LJMode K) (u : K) : Prop :=
  u ≠ 0 ∧ u ≠ P.cutoff2 ∧
    (match mode with
      | .cutoff => True
      | .switched w => w = 0 ∨ u ≠ P.ron2 w)

/-- Component selector for the two coordinate axes. -/
def getAx : Bool → K × K → K
  | false, v => v.1
  | true, v => v.2

/-- Replace one coordinate axis of a 2D vector. -/
def setAx : Bool → K × K → K → K × K
  | false, v, t => (t, v.2)
  | true, v, t => (v.1, t)

/-- Vary a single scalar degree of freedom: axis `ax` of atom `k`. -/
def updCoords (coords : ℕ → K × K) (k : ℕ) (ax : Bool) (t : K) : ℕ → K × K :=
  Function.update coords k (setAx ax (coords k) t)

/-! ### Supporting lemmas -/

theorem pairsN_mem (n : ℕ) (p : ℕ × ℕ) : p ∈ pairsN n ↔ p.1 < p.2 ∧ p.2 < n := by
  cases p with
  | mk i j =>
    simp only [pairsN, List.mem_flatMap, List.mem_map, List.mem_range, List.mem_range'_1,
      Prod.mk.injEq]
    constructor
    · rintro ⟨a, ha, b, ⟨hb1, hb2⟩, rfl, rfl⟩
      exact ⟨hb1, by omega⟩
    · rintro ⟨h1, h2⟩
      exact ⟨i, by omega, j, ⟨by omega, by omega⟩, rfl, rfl⟩

theorem pairsN_length (n : ℕ) : (pairsN n).length = n * (n-1) / 2 := by
  simp only [pairsN, List.length_flatMap, List.map_map]
  have h1 : ((List.range n).map
        (List.length ∘ fun i => (List.range' (i+1) (n - (i+1))).map (fun j => (i, j)))).sum
      = ∑ i ∈ Finset.range n, (n - (i+1)) := by
    simp only [Function.comp_def, List.length_map, List.length_range']
    rfl
  rw [h1, ← Finset.sum_range_reflect]
  have h2 : ∀ j ∈ Finset.range n, n - (n - 1 - j + 1) = j := by
    intro j hj
    simp only [Finset.mem_range] at hj
    omega
  rw [Finset.sum_congr rfl h2, Finset.sum_range_id]

theorem pairsN_nodup (n : ℕ) : (pairsN n).Nodup := by
  rw [pairsN, List.nodup_flatMap]
  refine ⟨fun i _ => (List.nodup_range' _ _).map ?_, ?_⟩
  · intro a b h
    simpa using congrArg Prod.snd h
  · refine (List.pairwise_lt_range n).imp ?_
    intro a b hab p hp hq
    simp only [List.mem_map] at hp hq
    obtain ⟨x, _, rfl⟩ := hp
    obtain ⟨y, _, hy⟩ := hq
    exact absurd (congrArg Prod.fst hy.symm) (by simpa using hab.ne)

theorem periodicity_component_bound (L x : K) (hL : 0 < L) :
    |x - L * ⌊x * L⁻¹ + 1/2⌋| ≤ L / 2 := by
  have h1 : (⌊x * L⁻¹ + 1/2⌋ : K) ≤ x * L⁻¹ + 1/2 := Int.floor_le _
  have h2 : x * L⁻¹ + 1/2 - 1 < ⌊x * L⁻¹ + 1/2⌋ := Int.sub_one_lt_floor _
  have hx : L * (x * L⁻¹) = x := by
    field_simp
  rw [abs_le]
  constructor
  · have := mul_le_mul_of_nonneg_left h1 hL.le
    nlinarith
  · have := mul_le_mul_of_nonneg_left h2.le hL.le
    nlinarith

theorem applyPeriodicity_int_shift (L : K) (hL : L ≠ 0) (z1 z2 : ℤ) (d : K × K) :
    applyPeriodicity L (d + ((z1:K)*L, (z2:K)*L)) = applyPeriodicity L d := by
  have key : ∀ (z : ℤ) (x : K),
      x + (z:K)*L - L*⌊(x + (z:K)*L)*L⁻¹ + 1/2⌋ = x - L*⌊x*L⁻¹ + 1/2⌋ := by
    intro z x
    have h1 : (x + (z:K)*L) * L⁻¹ + 1/2 = (x*L⁻¹ + 1/2) + (z:K) := by
      field_simp
      ring
    rw [h1, Int.floor_add_int]
    push_cast
    ring
  simp only [applyPeriodicity, Prod.fst_add, Prod.snd_add]
  exact Prod.ext (key z1 d.1) (key z2 d.2)

theorem dispVec_int_shift (P : Params K) (hL : P.boxlength ≠ 0)
    (coords : ℕ → K × K) (m : ℕ) (z1 z2 : ℤ) (p : ℕ × ℕ) :
    dispVec P (shiftAtom coords m ((z1:K)*P.boxlength, (z2:K)*P.boxlength)) p
      = dispVec P coords p := by
  set v : K × K := ((z1:K)*P.boxlength, (z2:K)*P.boxlength) with hv
  unfold dispVec shiftAtom
  rcases eq_or_ne p.1 m with h1 | h1 <;> rcases eq_or_ne p.2 m with h2 | h2
  · rw [h1, h2, Function.update_same]
    congr 1
    abel
  · have hneg : -v = (((-z1 : ℤ):K)*P.boxlength, ((-z2 : ℤ):K)*P.boxlength) := by
      rw [hv]
      refine Prod.ext ?_ ?_ <;> · push_cast; simp
    have hd : Function.update coords m (coords m + v) p.2
          - Function.update coords m (coords m + v) p.1
        = (coords p.2 - coords p.1) + (((-z1 : ℤ):K)*P.boxlength, ((-z2 : ℤ):K)*P.boxlength) := by
      rw [h1, Function.update_same, Function.update_noteq h2, ← hneg]
      abel
    rw [hd, applyPeriodicity_int_shift _ hL]
  · have hd : Function.update coords m (coords m + v) p.2
          - Function.update coords m (coords m + v) p.1
        = (coords p.2 - coords p.1) + v := by
      rw [h2, Function.update_same, Function.update_noteq h1]
      abel
    rw [hd, hv, applyPeriodicity_int_shift _ hL]
  · rw [Function.update_noteq h1, Function.update_noteq h2]

/-! ### Claim theorems -/

/-- **C2**: in hard-cutoff mode, every pair whose minimum-image squared
distance exceeds `cutoff²` contributes exactly zero energy and exactly the
zero vector to both (indeed all) force entries; a pair with
`0 < r` and `r² ≤ cutoff²` contributes the standard Lennard-Jones energy
`4ε[(σ_pair/r)^12 − (σ_pair/r)^6]` with `σ_pair = 2σ`. -/
theorem hard_cutoff_pair_contribution (P : Params K) :
    (∀ (coords : ℕ → K × K) (p : ℕ × ℕ) (k : ℕ),
        P.cutoff2 < pairR2 P coords p →
          (pairQ P LJMode.cutoff (pairR2 P coords p)).1 = 0 ∧
          forceContrib P LJMode.cutoff coords p k = 0) ∧
    (∀ r : K, 0 < r → r^2 ≤ P.cutoff2 →
        (pairQ P LJMode.cutoff (r^2)).1 =
          4 * P.epsilon * ((2 * P.sigma / r)^12 - (2 * P.sigma / r)^6)) := by
  constructor
  · intro coords p k h
    have h0 : (pairQ P LJMode.cutoff (pairR2 P coords p)).1 = 0 ∧
        (pairQ P LJMode.cutoff (pairR2 P coords p)).2 = 0 := by
      simp only [pairQ, cutoffPair]
      simp [if_pos h]
    refine ⟨h0.1, ?_⟩
    rw [forceContrib]
    simp [h0.2]
  · intro r hr h2
    have hne : ¬ (P.cutoff2 < r^2) := not_lt.mpr h2
    simp only [pairQ, cutoffPair, if_neg hne, Params.foureps, Params.sig2, Params.sigmaij]
    have hr' : r ≠ 0 := ne_of_gt hr
    field_simp
    ring

theorem hard_cutoff_pair_contribution_witness :
    ((Params.mk (27/100) (3/10) 2 (1/200) 5 3 (1/2) : Params ℚ).cutoff2 <
        pairR2 (Params.mk (27/100) (3/10) 2 (1/200) 5 3 (1/2))
          (fun k => if k = 0 then (0,0) else (1,0)) (0,1) ∧
      (pairQ (Params.mk (27/100) (3/10) 2 (1/200) 5 3 (1/2) : Params ℚ) LJMode.cutoff
          (pairR2 (Params.mk (27/100) (3/10) 2 (1/200) 5 3 (1/2))
            (fun k => if k = 0 then (0,0) else (1,0)) (0,1))).1 = 0 ∧
      forceContrib (Params.mk (27/100) (3/10) 2 (1/200) 5 3 (1/2) : Params ℚ)
        LJMode.cutoff (fun k => if k = 0 then (0,0) else (1,0)) (0,1) 0 = 0) ∧
    ((0:ℚ) < 1/2 ∧ ((1:ℚ)/2)^2 ≤ (Params.mk (27/100) (3/10) 2 (1/200) 5 3 (1/2) : Params ℚ).cutoff2 ∧
      (pairQ (Params.mk (27/100) (3/10) 2 (1/200) 5 3 (1/2) : Params ℚ) LJMode.cutoff (((1:ℚ)/2)^2)).1 =
        4 * (3/10) * ((2 * (27/100) / (1/2))^12 - (2 * (27/100) / (1/2))^6)) := by
  constructor
  · have h : (Params.mk (27/100) (3/10) 2 (1/200) 5 3 (1/2) : Params ℚ).cutoff2 <
        pairR2 (Params.mk (27/100) (3/10) 2 (1/200) 5 3 (1/2))
          (fun k => if k = 0 then (0,0) else (1,0)) (0,1) := by
      norm_num [pairR2, dispVec, applyPeriodicity, mim, dot, Params.cutoff2, Prod.sub_def]
    exact ⟨h, ((hard_cutoff_pair_contribution _).1 _ _ 0 h).1,
      ((hard_cutoff_pair_contribution _).1 _ _ 0 h).2⟩
  · exact ⟨by norm_num, by norm_num [Params.cutoff2],
      (hard_cutoff_pair_contribution _).2 (1/2) (by norm_num) (by norm_num [Params.cutoff2])⟩

/-- **C10**: stored trajectory positions are never wrapped back into the
box — `propagate` keeps the raw Verlet update (wrapping touches only the
pair displacements inside the evaluator; the wrapped `displaycoords` copy
feeds only the plot) — and translating any single particle by integer
multiples of the box length along either axis leaves the evaluator's
returned total energy and every force entry exactly unchanged, in both
modes. -/
theorem positions_unwrapped_and_translation_invariant (P : Params K)
    (mode : LJMode K) (st : MDState K) (n : ℕ) (coords : ℕ → K × K)
    (m : ℕ) (z1 z2 : ℤ) (hL : P.boxlength ≠ 0) :
    ((propagate P mode st).coords = fun k =>
        (2 : K) • st.coords k - st.last_coords k +
          (P.dt * P.dt) • ((-P.minv) • (evaluate P mode P.natoms st.coords).2 k)) ∧
    evaluate P mode n (shiftAtom coords m ((z1:K)*P.boxlength, (z2:K)*P.boxlength))
      = evaluate P mode n coords := by
  refine ⟨rfl, ?_⟩
  have h : ∀ p, dispVec P (shiftAtom coords m ((z1:K)*P.boxlength, (z2:K)*P.boxlength)) p
      = dispVec P coords p := dispVec_int_shift P hL coords m z1 z2
  simp only [evaluate, forceContrib, pairR2, h]

theorem positions_unwrapped_and_translation_invariant_witness :
    (Params.mk (27/100) (3/10) 2 (1/200) 5 3 (1/2) : Params ℚ).boxlength ≠ 0 ∧
    evaluate (Params.mk (27/100) (3/10) 2 (1/200) 5 3 (1/2) : Params ℚ) LJMode.cutoff 2
        (shiftAtom (fun k => if k = 0 then (0,0) else (1,0)) 0
          (((2:ℤ):ℚ) * (3:ℚ), (((-1):ℤ):ℚ) * (3:ℚ)))
      = evaluate (Params.mk (27/100) (3/10) 2 (1/200) 5 3 (1/2) : Params ℚ) LJMode.cutoff 2
        (fun k => if k = 0 then (0,0) else (1,0)) := by
  have hb : (Params.mk (27/100) (3/10) 2 (1/200) 5 3 (1/2) : Params ℚ).boxlength ≠ 0 := by
    norm_num
  exact ⟨hb, positions_unwrapped_and_translation_invariant
    (Params.mk (27/100) (3/10) 2 (1/200) 5 3 (1/2))
    LJMode.cutoff ⟨fun _ => 0, fun _ => 0, 0, [], [], [], []⟩ 2
    (fun k => if k = 0 then (0,0) else (1,0)) 0 2 (-1) hb |>.2⟩

/-- **C8**: for every input displacement vector and every boxlength `L > 0`,
the minimum-image displacement returned by `apply_periodicity` has each
component's magnitude at most `L/2`, each component being the input
component minus `L` times the nearest integer multiple of `L` per
`d' = d - L*round(d/L)`, applied independently per coordinate axis. -/
theorem minimum_image_bound (L : K) (d : K × K) (hL : 0 < L) :
    |(applyPeriodicity L d).1| ≤ L / 2 ∧ |(applyPeriodicity L d).2| ≤ L / 2 ∧
    applyPeriodicity L d = (d.1 - L * round (d.1 / L), d.2 - L * round (d.2 / L)) := by
  refine ⟨periodicity_component_bound L d.1 hL, periodicity_component_bound L d.2 hL, ?_⟩
  rw [applyPeriodicity, mim, mim, round_eq, round_eq, div_eq_mul_inv d.1 L, div_eq_mul_inv d.2 L]

theorem minimum_image_bound_witness :
    (0 : ℚ) < 2 ∧
      (|(applyPeriodicity (2:ℚ) (37/10, -5)).1| ≤ 2 / 2 ∧
       |(applyPeriodicity (2:ℚ) (37/10, -5)).2| ≤ 2 / 2 ∧
       applyPeriodicity (2:ℚ) (37/10, -5) =
         ((37:ℚ)/10 - 2 * round ((37:ℚ)/10 / 2), (-5:ℚ) - 2 * round ((-5:ℚ) / 2))) :=
  ⟨by decide, minimum_image_bound (2:ℚ) (37/10, -5) (by decide)⟩

/-- **C9**: for every particle count `N ≥ 2`, the pair list built at
construction contains exactly `N(N-1)/2` pairs `(i, j)` with `i < j`, with
no duplicates and no self-pairs, covering every unordered pair of distinct
indices in `0..N-1` exactly once.  (`pairsN` is a pure function of `N`, so
it is deterministic and the same sequence is used by every evaluation.) -/
theorem pair_enumerator_spec (n : ℕ) (_hn : 2 ≤ n) :
    (pairsN n).length = n * (n-1) / 2 ∧
    (pairsN n).Nodup ∧
    (∀ p ∈ pairsN n, p.1 < p.2 ∧ p.2 < n) ∧
    (∀ j, j < n → ∀ i, i < j → (i, j) ∈ pairsN n) := by
  refine ⟨pairsN_length n, pairsN_nodup n, ?_, ?_⟩
  · intro p hp
    exact (pairsN_mem n p).mp hp
  · intro j hj i hij
    exact (pairsN_mem n (i, j)).mpr ⟨hij, hj⟩

/-- **C3**: a switched-mode evaluator configured with `window = 0` returns,
for every position array, exactly the same (energy, forces) result as the
hard-cutoff evaluator with the same sigma, epsilon and cutoff: the
dispatcher `MDSimulationSwitch.compute_energy_and_gradient` selects the
inherited cutoff method outright (window 0 is a mode selector, no
switched-mode expression — in particular no `1/(roff2-ron2)**3` — is
evaluated). -/
theorem switch_window_zero_equals_hard_cutoff (P : Params K) (n : ℕ)
    (coords : ℕ → K × K) :
    evaluate P (LJMode.switched 0) n coords = evaluate P LJMode.cutoff n coords := by
  have hq : pairQ P (LJMode.switched 0) = pairQ P LJMode.cutoff := by
    funext u
    simp [pairQ]
  simp only [evaluate, forceContrib, hq]

/-- **C5**: every call to `propagate` computes
`new_position = 2*current - previous + dt²*acceleration` with the
acceleration obtained from the evaluator's output at the current positions
divided by mass (`a = -minv*gradient`), recovers
`v = (new_position - previous)/(2*dt)`, computes kinetic energy
`½ m Σ v²`, shifts the history pair, advances time by `dt`, and appends
exactly one `(time, potential, kinetic, potential+kinetic)` record to the
energy series. -/
theorem propagate_step_spec (P : Params K) (mode : LJMode K) (st : MDState K) :
    (propagate P mode st).coords = (fun k =>
        (2 : K) • st.coords k - st.last_coords k +
          (P.dt * P.dt) • ((-P.minv) • (evaluate P mode P.natoms st.coords).2 k)) ∧
    (propagate P mode st).last_coords = st.coords ∧
    (propagate P mode st).timestep = st.timestep + P.dt ∧
    (propagate P mode st).timeseries = st.timeseries ++ [st.timestep + P.dt] ∧
    (propagate P mode st).PEs = st.PEs ++ [(evaluate P mode P.natoms st.coords).1] ∧
    (propagate P mode st).KEs = st.KEs ++
      [1/2 * P.mass * ((List.range P.natoms).map (fun k =>
          dot ((2 * P.dt)⁻¹ • ((propagate P mode st).coords k - st.last_coords k))
              ((2 * P.dt)⁻¹ • ((propagate P mode st).coords k - st.last_coords k)))).sum] ∧
    (propagate P mode st).TEs = st.TEs ++
      [(evaluate P mode P.natoms st.coords).1 +
        1/2 * P.mass * ((List.range P.natoms).map (fun k =>
          dot ((2 * P.dt)⁻¹ • ((propagate P mode st).coords k - st.last_coords k))
              ((2 * P.dt)⁻¹ • ((propagate P mode st).coords k - st.last_coords k)))).sum] :=
  ⟨rfl, rfl, rfl, rfl, rfl, rfl, rfl⟩

/-- **C6** (supporting theorem for the code bug): on the configuration
`boxlength = 3, cutoff = 1.5` (cutoff = boxlength/2) the constructor guard
`if(cutoff >= boxlength/2.0)` of `MDSimulation.__init__` takes the raising
branch before any integration step, and on `cutoff = 1.2` it does not.
The source's raising branch, however, executes `raise ValidationError(...)`
with `ValidationError` never defined or imported in the notebook, so the
exception actually delivered is a `NameError` that does not carry the
constraint message modelled here. -/
theorem cutoff_guard_fires :
    checkCutoff (3 : ℚ) (3/2) =
      Except.error "The cutoff must be less than boxlength/2" ∧
    checkCutoff (3 : ℚ) (6/5) = Except.ok () := by
  constructor <;> · unfold checkCutoff; norm_num

/-- **C7**: the propagate recurrence is time-symmetric: one step applied to
the role-reversed history pair undoes one step (`verletStep` maps
`(previous, current)` to `(current, next)`; applied to the swap of its own
output it returns the swap of its input), and consequently running `K`
steps, swapping current and previous positions, and running `K` steps
again returns exactly (in field arithmetic) to the swapped starting pair. -/
theorem verlet_time_symmetry (P : Params K) (mode : LJMode K) :
    (∀ s : (ℕ → K × K) × (ℕ → K × K),
        verletStep P mode (Prod.swap (verletStep P mode s)) = Prod.swap s) ∧
    (∀ (m : ℕ) (s : (ℕ → K × K) × (ℕ → K × K)),
        (verletStep P mode)^[m] (Prod.swap ((verletStep P mode)^[m] s)) = Prod.swap s) := by
  have hone : ∀ s, verletStep P mode (Prod.swap (verletStep P mode s)) = Prod.swap s := by
    intro s
    refine Prod.ext ?_ ?_
    · rfl
    · funext k
      simp only [verletStep, Prod.swap]
      abel
  refine ⟨hone, ?_⟩
  intro m
  induction m with
  | zero => intro s; rfl
  | succ m ih =>
    intro s
    rw [Function.iterate_succ_apply' (verletStep P mode) m s, Function.iterate_succ_apply,
        hone, ih]

theorem pair_enumerator_spec_witness :
    2 ≤ 5 ∧
      ((pairsN 5).length = 5 * (5-1) / 2 ∧
       (pairsN 5).Nodup ∧
       (∀ p ∈ pairsN 5, p.1 < p.2 ∧ p.2 < 5) ∧
       (∀ j, j < 5 → ∀ i, i < j → (i, j) ∈ pairsN 5)) :=
  ⟨by decide, pair_enumerator_spec 5 (by decide)⟩


/-! ### Derivative consistency of the evaluators (over ℝ) -/

theorem cutoffPair_fst_of_not_lt (sig2 foureps cutoff2 u : K) (h : ¬ cutoff2 < u) :
    (cutoffPair sig2 foureps cutoff2 u).1 = lj sig2 foureps u := by
  simp only [cutoffPair, if_neg h, lj]
  ring

theorem cutoffPair_snd_of_not_lt (sig2 foureps cutoff2 u : K) (h : ¬ cutoff2 < u) :
    (cutoffPair sig2 foureps cutoff2 u).2
      = 6 * u⁻¹ * (2 * (foureps * (sig2 * u⁻¹)^6) - foureps * (sig2 * u⁻¹)^3) := by
  simp only [cutoffPair, if_neg h]
  ring

theorem cutoffPair_of_lt (sig2 foureps cutoff2 u : K) (h : cutoff2 < u) :
    cutoffPair sig2 foureps cutoff2 u = (0, 0) := by
  simp [cutoffPair, if_pos h]

theorem hasDerivAt_lj (sig2 foureps : ℝ) {u : ℝ} (hu : u ≠ 0) :
    HasDerivAt (lj sig2 foureps)
      (-(6 * u⁻¹ * (2 * (foureps * (sig2 * u⁻¹)^6) - foureps * (sig2 * u⁻¹)^3)) / 2) u := by
  have hinv : HasDerivAt (fun x : ℝ => sig2 * x⁻¹) (sig2 * -(u^2)⁻¹) u :=
    (hasDerivAt_inv hu).const_mul sig2
  have h6 := (hinv.pow 6).const_mul foureps
  have h3 := (hinv.pow 3).const_mul foureps
  have hd := h6.sub h3
  convert hd using 1
  field_simp
  ring

theorem hasDerivAt_cutoffPair_fst (sig2 foureps cutoff2 : ℝ) {u : ℝ}
    (hu : u ≠ 0) (hc : u ≠ cutoff2) :
    HasDerivAt (fun v => (cutoffPair sig2 foureps cutoff2 v).1)
      (-(cutoffPair sig2 foureps cutoff2 u).2 / 2) u := by
  rcases hc.lt_or_lt with hlt | hgt
  · have hev : (fun v => (cutoffPair sig2 foureps cutoff2 v).1) =ᶠ[nhds u]
        lj sig2 foureps := by
      filter_upwards [Iio_mem_nhds hlt] with v hv
      exact cutoffPair_fst_of_not_lt _ _ _ _ (not_lt.mpr (le_of_lt hv))
    rw [cutoffPair_snd_of_not_lt _ _ _ _ (not_lt.mpr hlt.le)]
    exact (hasDerivAt_lj sig2 foureps hu).congr_of_eventuallyEq hev
  · have hev : (fun v => (cutoffPair sig2 foureps cutoff2 v).1) =ᶠ[nhds u]
        (fun _ => (0:ℝ)) := by
      filter_upwards [Ioi_mem_nhds hgt] with v hv
      rw [cutoffPair_of_lt _ _ _ _ hv]
    rw [cutoffPair_of_lt _ _ _ _ hgt]
    have := (hasDerivAt_const u (0:ℝ)).congr_of_eventuallyEq hev
    convert this using 1
    norm_num


theorem switchF_of_lt (cutoff2 ron2 denom u : K) (h : cutoff2 < u) :
    switchF cutoff2 ron2 denom u = 0 := by
  simp [switchF, if_pos h]

theorem dswitchF_of_lt (cutoff2 ron2 denom u : K) (h : cutoff2 < u) :
    dswitchF cutoff2 ron2 denom u = 0 := by
  simp [dswitchF, if_pos h]

theorem switchF_of_mid (cutoff2 ron2 denom u : K) (h1 : ¬ cutoff2 < u) (h2 : ron2 < u) :
    switchF cutoff2 ron2 denom u = swpoly cutoff2 ron2 denom u := by
  simp [switchF, if_neg h1, if_pos h2, swpoly]

theorem dswitchF_of_mid (cutoff2 ron2 denom u : K) (h1 : ¬ cutoff2 < u) (h2 : ron2 < u) :
    dswitchF cutoff2 ron2 denom u = -12 * (u - cutoff2) * (u - ron2) * denom := by
  simp [dswitchF, if_neg h1, if_pos h2]

theorem switchF_of_low (cutoff2 ron2 denom u : K) (h1 : ¬ cutoff2 < u) (h2 : ¬ ron2 < u) :
    switchF cutoff2 ron2 denom u = 1 := by
  simp [switchF, if_neg h1, if_neg h2]

theorem dswitchF_of_low (cutoff2 ron2 denom u : K) (_h1 : ¬ cutoff2 < u) (h2 : ¬ ron2 < u) :
    dswitchF cutoff2 ron2 denom u = 0 := by
  simp [dswitchF, if_neg h2]

theorem switchPair_fst (sig2 foureps cutoff2 ron2 denom u : K) :
    (switchPair sig2 foureps cutoff2 ron2 denom u).1
      = switchF cutoff2 ron2 denom u * lj sig2 foureps u := by
  simp only [switchPair, lj]
  ring

theorem switchPair_snd (sig2 foureps cutoff2 ron2 denom u : K) :
    (switchPair sig2 foureps cutoff2 ron2 denom u).2
      = 6 * u⁻¹ * switchF cutoff2 ron2 denom u
          * (2 * (foureps * (sig2 * u⁻¹)^6) - foureps * (sig2 * u⁻¹)^3)
        + dswitchF cutoff2 ron2 denom u * lj sig2 foureps u := by
  simp only [switchPair, lj]
  ring

theorem hasDerivAt_swpoly (cutoff2 ron2 denom : ℝ) (u : ℝ) :
    HasDerivAt (swpoly cutoff2 ron2 denom)
      (-(-12 * (u - cutoff2) * (u - ron2) * denom) / 2) u := by
  have h1 : HasDerivAt (fun x : ℝ => cutoff2 + 2*x - 3*ron2) 2 u := by
    simpa using ((hasDerivAt_id u).const_mul 2).const_add cutoff2 |>.sub_const (3*ron2)
  have h2 : HasDerivAt (fun x : ℝ => (cutoff2 - x)^2) (2 * (cutoff2 - u) * (-1)) u := by
    simpa using ((hasDerivAt_id u).const_sub cutoff2).pow 2
  have := (h1.mul h2).mul_const denom
  convert this using 1
  ring

theorem hasDerivAt_switchF (cutoff2 ron2 denom : ℝ) {u : ℝ}
    (h1 : ron2 < u) (h2 : u < cutoff2) :
    HasDerivAt (switchF cutoff2 ron2 denom)
      (-(dswitchF cutoff2 ron2 denom u) / 2) u := by
  have hev : switchF cutoff2 ron2 denom =ᶠ[nhds u] swpoly cutoff2 ron2 denom := by
    filter_upwards [Ioo_mem_nhds h1 h2] with v hv
    exact switchF_of_mid _ _ _ _ (not_lt.mpr hv.2.le) hv.1
  rw [dswitchF_of_mid _ _ _ _ (not_lt.mpr h2.le) h1]
  exact (hasDerivAt_swpoly cutoff2 ron2 denom u).congr_of_eventuallyEq hev

theorem hasDerivAt_switchPair_fst (sig2 foureps cutoff2 ron2 denom : ℝ) {u : ℝ}
    (hu : u ≠ 0) (hc : u ≠ cutoff2) (ha : u ≠ ron2) :
    HasDerivAt (fun v => (switchPair sig2 foureps cutoff2 ron2 denom v).1)
      (-(switchPair sig2 foureps cutoff2 ron2 denom u).2 / 2) u := by
  rcases hc.lt_or_lt with hlt | hgt
  · rcases ha.lt_or_lt with halt | hagt
    · -- u < ron2 and u < cutoff2 : switch ≡ 1 locally
      have hev : (fun v => (switchPair sig2 foureps cutoff2 ron2 denom v).1) =ᶠ[nhds u]
          lj sig2 foureps := by
        filter_upwards [Iio_mem_nhds (lt_min halt hlt)] with v hv
        rw [switchPair_fst,
          switchF_of_low _ _ _ _ (not_lt.mpr (le_of_lt (lt_of_lt_of_le hv (min_le_right _ _))))
            (not_lt.mpr (le_of_lt (lt_of_lt_of_le hv (min_le_left _ _)))), one_mul]
      rw [switchPair_snd,
        switchF_of_low _ _ _ _ (not_lt.mpr hlt.le) (not_lt.mpr halt.le),
        dswitchF_of_low _ _ _ _ (not_lt.mpr hlt.le) (not_lt.mpr halt.le)]
      have := (hasDerivAt_lj sig2 foureps hu).congr_of_eventuallyEq hev
      convert this using 1
      ring
    · -- ron2 < u < cutoff2 : polynomial branch times lj
      have hev : (fun v => (switchPair sig2 foureps cutoff2 ron2 denom v).1) =ᶠ[nhds u]
          (fun v => swpoly cutoff2 ron2 denom v * lj sig2 foureps v) := by
        filter_upwards [Ioo_mem_nhds hagt hlt] with v hv
        rw [switchPair_fst, switchF_of_mid _ _ _ _ (not_lt.mpr hv.2.le) hv.1]
      have hd := (hasDerivAt_swpoly cutoff2 ron2 denom u).mul (hasDerivAt_lj sig2 foureps hu)
      have := hd.congr_of_eventuallyEq hev
      rw [switchPair_snd,
        switchF_of_mid _ _ _ _ (not_lt.mpr hlt.le) hagt,
        dswitchF_of_mid _ _ _ _ (not_lt.mpr hlt.le) hagt]
      convert this using 1
      rw [swpoly, lj]
      ring
  · -- beyond the cutoff : locally zero
    have hev : (fun v => (switchPair sig2 foureps cutoff2 ron2 denom v).1) =ᶠ[nhds u]
        (fun _ => (0:ℝ)) := by
      filter_upwards [Ioi_mem_nhds hgt] with v hv
      rw [switchPair_fst, switchF_of_lt _ _ _ _ hv, zero_mul]
    rw [switchPair_snd, switchF_of_lt _ _ _ _ hgt, dswitchF_of_lt _ _ _ _ hgt]
    have := (hasDerivAt_const u (0:ℝ)).congr_of_eventuallyEq hev
    convert this using 1
    ring


theorem hasDerivAt_pairQ_fst (P : Params ℝ) (mode : LJMode ℝ) {u : ℝ}
    (h : regularU P mode u) :
    HasDerivAt (fun v => (pairQ P mode v).1) (-(pairQ P mode u).2 / 2) u := by
  obtain ⟨hu, hc, hm⟩ := h
  cases mode with
  | cutoff =>
    simp only [pairQ]
    exact hasDerivAt_cutoffPair_fst _ _ _ hu hc
  | switched w =>
    by_cases hw : w = 0
    · simp only [pairQ, if_pos hw]
      exact hasDerivAt_cutoffPair_fst _ _ _ hu hc
    · simp only [pairQ, if_neg hw]
      exact hasDerivAt_switchPair_fst _ _ _ _ _ hu hc ((hm.resolve_left hw))

theorem getAx_setAx (ax : Bool) (v : K × K) (t : K) : getAx ax (setAx ax v t) = t := by
  cases ax <;> rfl

theorem getAx_not_setAx (ax : Bool) (v : K × K) (t : K) :
    getAx (!ax) (setAx ax v t) = getAx (!ax) v := by
  cases ax <;> rfl

theorem setAx_getAx (ax : Bool) (v : K × K) : setAx ax v (getAx ax v) = v := by
  cases ax <;> rfl

theorem updCoords_self (coords : ℕ → K × K) (k : ℕ) (ax : Bool) :
    updCoords coords k ax (getAx ax (coords k)) = coords := by
  funext m
  rcases eq_or_ne m k with rfl | hm
  · rw [updCoords, Function.update_same, setAx_getAx]
  · rw [updCoords, Function.update_noteq hm]

theorem getAx_sub (ax : Bool) (a b : K × K) :
    getAx ax (a - b) = getAx ax a - getAx ax b := by
  cases ax <;> rfl

theorem getAx_smul (ax : Bool) (c : K) (v : K × K) :
    getAx ax (c • v) = c * getAx ax v := by
  cases ax <;> rfl

theorem getAx_zero (ax : Bool) : getAx ax (0 : K × K) = 0 := by
  cases ax <;> rfl

theorem getAx_add (ax : Bool) (a b : K × K) :
    getAx ax (a + b) = getAx ax a + getAx ax b := by
  cases ax <;> rfl

theorem getAx_neg (ax : Bool) (a : K × K) : getAx ax (-a) = -(getAx ax a) := by
  cases ax <;> rfl

theorem getAx_list_sum (ax : Bool) (l : List (K × K)) :
    getAx ax l.sum = (l.map (getAx ax)).sum := by
  induction l with
  | nil => simp [getAx_zero]
  | cons a l ih => simp [getAx_add, ih]

/-- The squared pair distance splits along the chosen axis. -/
theorem pairR2_decomp (P : Params K) (coords : ℕ → K × K) (p : ℕ × ℕ) (ax : Bool) :
    pairR2 P coords p
      = (mim P.boxlength (getAx ax (coords p.2 - coords p.1)))^2
        + (mim P.boxlength (getAx (!ax) (coords p.2 - coords p.1)))^2 := by
  cases ax <;>
    · simp only [pairR2, dot, dispVec, applyPeriodicity, getAx, Bool.not_true, Bool.not_false,
        Prod.fst_sub, Prod.snd_sub]
      ring

theorem getAx_dispVec (P : Params K) (coords : ℕ → K × K) (p : ℕ × ℕ) (ax : Bool) :
    getAx ax (dispVec P coords p) = mim P.boxlength (getAx ax (coords p.2 - coords p.1)) := by
  cases ax <;> rfl


theorem eventually_floor_const (x₀ : ℝ) (hf : Int.fract x₀ ≠ 0) :
    ∀ᶠ x in nhds x₀, ⌊x⌋ = ⌊x₀⌋ := by
  have h1 : (⌊x₀⌋ : ℝ) < x₀ := by
    rcases lt_or_eq_of_le (Int.floor_le x₀) with h | h
    · exact h
    · exact absurd (by rw [← h, Int.fract_intCast]) hf
  have h2 : x₀ < ⌊x₀⌋ + 1 := Int.lt_floor_add_one x₀
  filter_upwards [Ioo_mem_nhds h1 h2] with x hx
  rw [Int.floor_eq_iff]
  exact ⟨hx.1.le, by exact_mod_cast hx.2⟩

theorem hasDerivAt_mim_sq (L : ℝ) {x₀ : ℝ}
    (hf : Int.fract (x₀ * L⁻¹ + 1/2) ≠ 0) :
    HasDerivAt (fun x => (mim L x)^2) (2 * mim L x₀) x₀ := by
  have hcont : ContinuousAt (fun x : ℝ => x * L⁻¹ + 1/2) x₀ :=
    (continuousAt_id.mul continuousAt_const).add continuousAt_const
  have hfl : ∀ᶠ x in nhds x₀, ⌊x * L⁻¹ + 1/2⌋ = ⌊x₀ * L⁻¹ + 1/2⌋ :=
    hcont.eventually (eventually_floor_const _ hf)
  have hev : (fun x => (mim L x)^2) =ᶠ[nhds x₀]
      (fun x => (x - L * ⌊x₀ * L⁻¹ + 1/2⌋)^2) := by
    filter_upwards [hfl] with x hx
    rw [mim, hx]
  have hd : HasDerivAt (fun x : ℝ => (x - L * ⌊x₀ * L⁻¹ + 1/2⌋)^2)
      (2 * (x₀ - L * ⌊x₀ * L⁻¹ + 1/2⌋)) x₀ := by
    simpa using ((hasDerivAt_id x₀).sub_const ((L : ℝ) * ⌊x₀ * L⁻¹ + 1/2⌋)).pow 2
  have := hd.congr_of_eventuallyEq hev
  rw [mim]
  exact this


theorem pair_term_hasDerivAt (P : Params ℝ) (mode : LJMode ℝ) (coords : ℕ → ℝ × ℝ)
    (k : ℕ) (ax : Bool) (p : ℕ × ℕ) (hp : p.1 ≠ p.2)
    (hreg : p.1 = k ∨ p.2 = k → regularU P mode (pairR2 P coords p))
    (hfr : p.1 = k ∨ p.2 = k →
      Int.fract (getAx ax (coords p.2 - coords p.1) * P.boxlength⁻¹ + 1/2) ≠ 0) :
    HasDerivAt (fun t => (pairQ P mode (pairR2 P (updCoords coords k ax t) p)).1)
      (getAx ax (forceContrib P mode coords p k)) (getAx ax (coords k)) := by
  by_cases hk1 : p.1 = k
  · subst hk1
    have hk2 : p.2 ≠ p.1 := hp.symm
    set L := P.boxlength with hLdef
    set A := getAx ax (coords p.2) with hA
    set B := getAx (!ax) (coords p.2 - coords p.1) with hB
    set t₀ := getAx ax (coords p.1) with ht0
    have hu : ∀ t, pairR2 P (updCoords coords p.1 ax t) p
        = (mim L (A - t))^2 + (mim L B)^2 := by
      intro t
      rw [pairR2_decomp P _ p ax]
      have e2 : updCoords coords p.1 ax t p.2 = coords p.2 :=
        Function.update_noteq hk2 _ _
      have e1 : updCoords coords p.1 ax t p.1 = setAx ax (coords p.1) t :=
        Function.update_same _ _ _
      rw [e2, e1, getAx_sub ax, getAx_setAx, getAx_sub (!ax), getAx_not_setAx,
        ← getAx_sub (!ax), hA, hB]
    have ht₀val : (mim L (A - t₀))^2 + (mim L B)^2 = pairR2 P coords p := by
      rw [← hu t₀, ht0, updCoords_self]
    have hAt : A - t₀ = getAx ax (coords p.2 - coords p.1) := by
      rw [hA, ht0, getAx_sub]
    have haff : HasDerivAt (fun t : ℝ => A - t) (-1) t₀ := by
      simpa using (hasDerivAt_id t₀).const_sub A
    have hsq : HasDerivAt (fun x => (mim L x)^2) (2 * mim L (A - t₀)) (A - t₀) := by
      apply hasDerivAt_mim_sq
      rw [hAt]
      exact hfr (Or.inl rfl)
    have hcomp1 : HasDerivAt (fun t => (mim L (A - t))^2)
        (2 * mim L (A - t₀) * (-1)) t₀ := by
      have := hsq.comp t₀ haff
      simpa [Function.comp] using this
    have husum : HasDerivAt (fun t => (mim L (A - t))^2 + (mim L B)^2)
        (2 * mim L (A - t₀) * (-1)) t₀ := hcomp1.add_const _
    have hreg2 : regularU P mode ((mim L (A - t₀))^2 + (mim L B)^2) := by
      rw [ht₀val]
      exact hreg (Or.inl rfl)
    have houter : HasDerivAt (fun t => (pairQ P mode ((mim L (A - t))^2 + (mim L B)^2)).1)
        (-(pairQ P mode (pairR2 P coords p)).2 / 2 * (2 * mim L (A - t₀) * (-1))) t₀ := by
      have h := (hasDerivAt_pairQ_fst P mode hreg2).comp t₀ husum
      rw [ht₀val] at h
      simpa [Function.comp] using h
    have hfun : (fun t => (pairQ P mode (pairR2 P (updCoords coords p.1 ax t) p)).1)
        = fun t => (pairQ P mode ((mim L (A - t))^2 + (mim L B)^2)).1 :=
      funext fun t => by rw [hu t]
    have hgoalval : getAx ax (forceContrib P mode coords p p.1)
        = (pairQ P mode (pairR2 P coords p)).2 * mim L (A - t₀) := by
      simp only [forceContrib, if_pos rfl, if_true, if_neg (fun h : p.1 = p.2 => hp h), sub_zero]
      rw [getAx_smul, getAx_dispVec, hAt]
    rw [hfun, hgoalval]
    convert houter using 1
    ring
  · by_cases hk2 : p.2 = k
    · subst hk2
      have hk1' : p.1 ≠ p.2 := hp
      set L := P.boxlength with hLdef
      set A := getAx ax (coords p.1) with hA
      set B := getAx (!ax) (coords p.2 - coords p.1) with hB
      set t₀ := getAx ax (coords p.2) with ht0
      have hu : ∀ t, pairR2 P (updCoords coords p.2 ax t) p
          = (mim L (t - A))^2 + (mim L B)^2 := by
        intro t
        rw [pairR2_decomp P _ p ax]
        have e1 : updCoords coords p.2 ax t p.1 = coords p.1 :=
          Function.update_noteq (fun h => hk1 h) _ _
        have e2 : updCoords coords p.2 ax t p.2 = setAx ax (coords p.2) t :=
          Function.update_same _ _ _
        rw [e1, e2, getAx_sub ax, getAx_setAx, getAx_sub (!ax), getAx_not_setAx,
          ← getAx_sub (!ax), hA, hB]
      have ht₀val : (mim L (t₀ - A))^2 + (mim L B)^2 = pairR2 P coords p := by
        rw [← hu t₀, ht0, updCoords_self]
      have hAt : t₀ - A = getAx ax (coords p.2 - coords p.1) := by
        rw [hA, ht0, getAx_sub]
      have haff : HasDerivAt (fun t : ℝ => t - A) 1 t₀ := by
        simpa using (hasDerivAt_id t₀).sub_const A
      have hsq : HasDerivAt (fun x => (mim L x)^2) (2 * mim L (t₀ - A)) (t₀ - A) := by
        apply hasDerivAt_mim_sq
        rw [hAt]
        exact hfr (Or.inr rfl)
      have hcomp1 : HasDerivAt (fun t => (mim L (t - A))^2)
          (2 * mim L (t₀ - A) * 1) t₀ := by
        have := hsq.comp t₀ haff
        simpa [Function.comp] using this
      have husum : HasDerivAt (fun t => (mim L (t - A))^2 + (mim L B)^2)
          (2 * mim L (t₀ - A) * 1) t₀ := hcomp1.add_const _
      have hreg2 : regularU P mode ((mim L (t₀ - A))^2 + (mim L B)^2) := by
        rw [ht₀val]
        exact hreg (Or.inr rfl)
      have houter : HasDerivAt (fun t => (pairQ P mode ((mim L (t - A))^2 + (mim L B)^2)).1)
          (-(pairQ P mode (pairR2 P coords p)).2 / 2 * (2 * mim L (t₀ - A) * 1)) t₀ := by
        have h := (hasDerivAt_pairQ_fst P mode hreg2).comp t₀ husum
        rw [ht₀val] at h
        simpa [Function.comp] using h
      have hfun : (fun t => (pairQ P mode (pairR2 P (updCoords coords p.2 ax t) p)).1)
          = fun t => (pairQ P mode ((mim L (t - A))^2 + (mim L B)^2)).1 :=
        funext fun t => by rw [hu t]
      have hgoalval : getAx ax (forceContrib P mode coords p p.2)
          = -((pairQ P mode (pairR2 P coords p)).2 * mim L (t₀ - A)) := by
        simp only [forceContrib, if_pos rfl, if_true, if_neg (fun h : p.2 = p.1 => hp h.symm), zero_sub]
        rw [getAx_neg, getAx_smul, getAx_dispVec, hAt]
      rw [hfun, hgoalval]
      convert houter using 1
      ring
    · -- the varied atom is not in the pair: the term is constant, contribution zero
      have hconst : ∀ t, pairR2 P (updCoords coords k ax t) p = pairR2 P coords p := by
        intro t
        have e1 : updCoords coords k ax t p.1 = coords p.1 :=
          Function.update_noteq (fun h => hk1 h) _ _
        have e2 : updCoords coords k ax t p.2 = coords p.2 :=
          Function.update_noteq (fun h => hk2 h) _ _
        rw [pairR2, dispVec, e1, e2, pairR2, dispVec]
      have hfun : (fun t => (pairQ P mode (pairR2 P (updCoords coords k ax t) p)).1)
          = fun _ => (pairQ P mode (pairR2 P coords p)).1 :=
        funext fun t => by rw [hconst t]
      have hzero : getAx ax (forceContrib P mode coords p k) = 0 := by
        simp only [forceContrib, if_neg (fun h : k = p.1 => hk1 h.symm),
          if_neg (fun h : k = p.2 => hk2 h.symm), sub_zero]
        exact getAx_zero ax
      rw [hfun, hzero]
      exact hasDerivAt_const _ _


theorem hasDerivAt_list_sum {α : Type*} (l : List α) (F : α → ℝ → ℝ) (G : α → ℝ) (x : ℝ)
    (h : ∀ a ∈ l, HasDerivAt (F a) (G a) x) :
    HasDerivAt (fun t => (l.map (fun a => F a t)).sum) ((l.map G).sum) x := by
  induction l with
  | nil => simpa using hasDerivAt_const x (0:ℝ)
  | cons a l ih =>
    simp only [List.map_cons, List.sum_cons]
    exact (h a (List.mem_cons_self a l)).add
      (ih fun b hb => h b (List.mem_cons_of_mem a hb))

/-- The returned per-atom row `k` is, componentwise, the derivative of the
returned total energy with respect to that degree of freedom (positive
gradient). -/
theorem evaluate_hasDerivAt (P : Params ℝ) (mode : LJMode ℝ) (n : ℕ)
    (coords : ℕ → ℝ × ℝ) (k : ℕ) (ax : Bool)
    (hreg : ∀ p ∈ pairsN n, p.1 = k ∨ p.2 = k → regularU P mode (pairR2 P coords p))
    (hfr : ∀ p ∈ pairsN n, p.1 = k ∨ p.2 = k →
        Int.fract (getAx ax (coords p.2 - coords p.1) * P.boxlength⁻¹ + 1/2) ≠ 0) :
    HasDerivAt (fun t => (evaluate P mode n (updCoords coords k ax t)).1)
      (getAx ax ((evaluate P mode n coords).2 k)) (getAx ax (coords k)) := by
  have h := hasDerivAt_list_sum (pairsN n)
      (fun p t => (pairQ P mode (pairR2 P (updCoords coords k ax t) p)).1)
      (fun p => getAx ax (forceContrib P mode coords p k)) (getAx ax (coords k))
      (fun p hp => pair_term_hasDerivAt P mode coords k ax p
        (Nat.ne_of_lt ((pairsN_mem n p).mp hp).1)
        (hreg p hp) (hfr p hp))
  have e2 : (evaluate P mode n coords).2 k
      = ((pairsN n).map (fun p => forceContrib P mode coords p k)).sum := rfl
  rw [e2, getAx_list_sum, List.map_map]
  simpa [Function.comp] using h


/-- **C1** (amended): for both the hard-cutoff and switched evaluators,
each pair's contribution is added to atom `i`'s force entry and subtracted
from atom `j`'s (opposite signs, Newton's third law); and, away from the
zero-separation, cutoff and switch-boundary surfaces and the minimum-image
wrap boundaries, atom `k`'s returned entry equals **plus** the partial
derivative of the returned total energy with respect to atom `k`'s
coordinate.  The array returned by `compute_energy_and_gradient` is the
gradient of the energy — the caller `propagate` supplies the minus sign
via `a = -minv*gradient` — not the negative gradient. -/
theorem evaluate_gradient_spec (P : Params ℝ) (mode : LJMode ℝ) (n : ℕ)
    (coords : ℕ → ℝ × ℝ) (k : ℕ) (ax : Bool)
    (hreg : ∀ p ∈ pairsN n, p.1 = k ∨ p.2 = k → regularU P mode (pairR2 P coords p))
    (hfr : ∀ p ∈ pairsN n, p.1 = k ∨ p.2 = k →
        Int.fract (getAx ax (coords p.2 - coords p.1) * P.boxlength⁻¹ + 1/2) ≠ 0) :
    (∀ p ∈ pairsN n, forceContrib P mode coords p p.1
        = (pairQ P mode (pairR2 P coords p)).2 • dispVec P coords p ∧
      forceContrib P mode coords p p.2
        = -((pairQ P mode (pairR2 P coords p)).2 • dispVec P coords p)) ∧
    HasDerivAt (fun t => (evaluate P mode n (updCoords coords k ax t)).1)
      (getAx ax ((evaluate P mode n coords).2 k)) (getAx ax (coords k)) := by
  constructor
  · intro p hp
    have hne : p.1 ≠ p.2 := Nat.ne_of_lt ((pairsN_mem n p).mp hp).1
    constructor
    · simp only [forceContrib, if_pos rfl, if_true,
        if_neg (fun h : p.1 = p.2 => hne h), sub_zero]
    · simp only [forceContrib, if_pos rfl, if_true,
        if_neg (fun h : p.2 = p.1 => hne h.symm), zero_sub]
  · exact evaluate_hasDerivAt P mode n coords k ax hreg hfr

theorem evaluate_gradient_spec_witness :
    (∀ p ∈ pairsN 2, p.1 = 0 ∨ p.2 = 0 →
        regularU (Params.mk (1/2) 1 2 (1/200) 5 10 2 : Params ℝ) LJMode.cutoff
          (pairR2 (Params.mk (1/2) 1 2 (1/200) 5 10 2)
            (fun m => if m = 0 then ((0:ℝ), (0:ℝ)) else (1, 0)) p)) ∧
    (∀ p ∈ pairsN 2, p.1 = 0 ∨ p.2 = 0 →
        Int.fract (getAx false
            ((fun m => if m = 0 then ((0:ℝ), (0:ℝ)) else (1, 0)) p.2
              - (fun m => if m = 0 then ((0:ℝ), (0:ℝ)) else (1, 0)) p.1)
          * (Params.mk (1/2) 1 2 (1/200) 5 10 2 : Params ℝ).boxlength⁻¹ + 1/2) ≠ 0) ∧
    ((∀ p ∈ pairsN 2,
        forceContrib (Params.mk (1/2) 1 2 (1/200) 5 10 2 : Params ℝ) LJMode.cutoff
            (fun m => if m = 0 then ((0:ℝ), (0:ℝ)) else (1, 0)) p p.1
          = (pairQ (Params.mk (1/2) 1 2 (1/200) 5 10 2) LJMode.cutoff
              (pairR2 (Params.mk (1/2) 1 2 (1/200) 5 10 2)
                (fun m => if m = 0 then ((0:ℝ), (0:ℝ)) else (1, 0)) p)).2
            • dispVec (Params.mk (1/2) 1 2 (1/200) 5 10 2)
                (fun m => if m = 0 then ((0:ℝ), (0:ℝ)) else (1, 0)) p ∧
        forceContrib (Params.mk (1/2) 1 2 (1/200) 5 10 2 : Params ℝ) LJMode.cutoff
            (fun m => if m = 0 then ((0:ℝ), (0:ℝ)) else (1, 0)) p p.2
          = -((pairQ (Params.mk (1/2) 1 2 (1/200) 5 10 2) LJMode.cutoff
              (pairR2 (Params.mk (1/2) 1 2 (1/200) 5 10 2)
                (fun m => if m = 0 then ((0:ℝ), (0:ℝ)) else (1, 0)) p)).2
            • dispVec (Params.mk (1/2) 1 2 (1/200) 5 10 2)
                (fun m => if m = 0 then ((0:ℝ), (0:ℝ)) else (1, 0)) p)) ∧
      HasDerivAt (fun t =>
          (evaluate (Params.mk (1/2) 1 2 (1/200) 5 10 2 : Params ℝ) LJMode.cutoff 2
            (updCoords (fun m => if m = 0 then ((0:ℝ), (0:ℝ)) else (1, 0)) 0 false t)).1)
        (getAx false ((evaluate (Params.mk (1/2) 1 2 (1/200) 5 10 2 : Params ℝ) LJMode.cutoff 2
            (fun m => if m = 0 then ((0:ℝ), (0:ℝ)) else (1, 0))).2 0))
        (getAx false ((fun m : ℕ => if m = 0 then ((0:ℝ), (0:ℝ)) else (1, 0)) 0))) := by
  have hreg : ∀ p ∈ pairsN 2, p.1 = 0 ∨ p.2 = 0 →
      regularU (Params.mk (1/2) 1 2 (1/200) 5 10 2 : Params ℝ) LJMode.cutoff
        (pairR2 (Params.mk (1/2) 1 2 (1/200) 5 10 2)
          (fun m => if m = 0 then ((0:ℝ), (0:ℝ)) else (1, 0)) p) := by
    intro p hp _
    have h12 := (pairsN_mem 2 p).mp hp
    have hpe : p = (0, 1) := by
      obtain ⟨a, b⟩ := p
      simp only [Prod.mk.injEq]
      omega
    subst hpe
    refine ⟨?_, ?_, trivial⟩ <;>
      norm_num [pairR2, dispVec, applyPeriodicity, mim, dot, Params.cutoff2]
  have hfr : ∀ p ∈ pairsN 2, p.1 = 0 ∨ p.2 = 0 →
      Int.fract (getAx false
          ((fun m => if m = 0 then ((0:ℝ), (0:ℝ)) else (1, 0)) p.2
            - (fun m => if m = 0 then ((0:ℝ), (0:ℝ)) else (1, 0)) p.1)
        * (Params.mk (1/2) 1 2 (1/200) 5 10 2 : Params ℝ).boxlength⁻¹ + 1/2) ≠ 0 := by
    intro p hp _
    have h12 := (pairsN_mem 2 p).mp hp
    have hpe : p = (0, 1) := by
      obtain ⟨a, b⟩ := p
      simp only [Prod.mk.injEq]
      omega
    subst hpe
    norm_num [Int.fract, getAx, Prod.fst_sub]
  exact ⟨hreg, hfr,
    evaluate_gradient_spec (Params.mk (1/2) 1 2 (1/200) 5 10 2) LJMode.cutoff 2
      (fun m => if m = 0 then ((0:ℝ), (0:ℝ)) else (1, 0)) 0 false hreg hfr⟩

/-- **C1** (counterexample to the claim as stated): at a concrete two-atom
hard-cutoff configuration the returned entry of atom 0 is `24`, the
*positive* partial derivative of the energy; its negation `-24` is *not*
the derivative, so the returned per-atom array is not the negative
gradient of the returned total energy. -/
theorem returned_array_not_negative_gradient :
    ¬ HasDerivAt
        (fun t => (evaluate (Params.mk (1/2) 1 2 (1/200) 5 10 2 : Params ℝ) LJMode.cutoff 2
            (updCoords (fun m => if m = 0 then ((0:ℝ), (0:ℝ)) else (1, 0)) 0 false t)).1)
        (-(getAx false
            ((evaluate (Params.mk (1/2) 1 2 (1/200) 5 10 2 : Params ℝ) LJMode.cutoff 2
              (fun m => if m = 0 then ((0:ℝ), (0:ℝ)) else (1, 0))).2 0)))
        (getAx false ((fun m : ℕ => if m = 0 then ((0:ℝ), (0:ℝ)) else (1, 0)) 0)) := by
  intro hcontra
  have hreg : ∀ p ∈ pairsN 2, p.1 = 0 ∨ p.2 = 0 →
      regularU (Params.mk (1/2) 1 2 (1/200) 5 10 2 : Params ℝ) LJMode.cutoff
        (pairR2 (Params.mk (1/2) 1 2 (1/200) 5 10 2)
          (fun m => if m = 0 then ((0:ℝ), (0:ℝ)) else (1, 0)) p) := by
    intro p hp _
    have h12 := (pairsN_mem 2 p).mp hp
    have hpe : p = (0, 1) := by
      obtain ⟨a, b⟩ := p
      simp only [Prod.mk.injEq]
      omega
    subst hpe
    refine ⟨?_, ?_, trivial⟩ <;>
      norm_num [pairR2, dispVec, applyPeriodicity, mim, dot, Params.cutoff2]
  have hfr : ∀ p ∈ pairsN 2, p.1 = 0 ∨ p.2 = 0 →
      Int.fract (getAx false
          ((fun m => if m = 0 then ((0:ℝ), (0:ℝ)) else (1, 0)) p.2
            - (fun m => if m = 0 then ((0:ℝ), (0:ℝ)) else (1, 0)) p.1)
        * (Params.mk (1/2) 1 2 (1/200) 5 10 2 : Params ℝ).boxlength⁻¹ + 1/2) ≠ 0 := by
    intro p hp _
    have h12 := (pairsN_mem 2 p).mp hp
    have hpe : p = (0, 1) := by
      obtain ⟨a, b⟩ := p
      simp only [Prod.mk.injEq]
      omega
    subst hpe
    norm_num [Int.fract, getAx, Prod.fst_sub]
  have hpos := evaluate_hasDerivAt (Params.mk (1/2) 1 2 (1/200) 5 10 2) LJMode.cutoff 2
      (fun m => if m = 0 then ((0:ℝ), (0:ℝ)) else (1, 0)) 0 false hreg hfr
  have hval : getAx false
      ((evaluate (Params.mk (1/2) 1 2 (1/200) 5 10 2 : Params ℝ) LJMode.cutoff 2
        (fun m => if m = 0 then ((0:ℝ), (0:ℝ)) else (1, 0))).2 0) = 24 := by
    have hp : pairsN 2 = [(0,1)] := rfl
    simp only [evaluate, hp, List.map_cons, List.map_nil, List.sum_cons, List.sum_nil]
    norm_num [forceContrib, pairQ, cutoffPair, pairR2, dispVec, applyPeriodicity, mim, dot,
      getAx, Params.sig2, Params.sigmaij, Params.foureps, Params.cutoff2, Prod.smul_def,
      Prod.fst_sub, Prod.snd_sub]
  have huniq := hcontra.unique hpos
  rw [hval] at huniq
  norm_num at huniq


/-- **C4**: in switched mode with `0 < window ≤ cutoff`, each pair's
energy is the Lennard-Jones energy multiplied by the switching factor; the
factor is `1` whenever `r² ≤ (cutoff−window)²`, agrees with a polynomial
(hence decays smoothly, continuously) on the switching window, is `0` at
`r² = cutoff²` and exactly `0` (as is the derivative factor) for
`r² > cutoff²`.  In the window, `dswitch` is exactly the derivative of the
switching factor with respect to r² scaled by the shared chain factor `-2`
(the force multiplies `dR`, and `∂(r²)/∂xᵢ = -2·dR`, so `dswitch*dR` is
exactly the gradient of the switching factor with respect to the atom
position), and the pair-force coefficient relates to the derivative of the
switched pair energy by the same convention — the product-rule term from
differentiating the switch is included. -/
theorem switch_factor_spec (P : Params ℝ) (w : ℝ) (hw : 0 < w) (hwc : w ≤ P.cutoff) :
    (∀ u : ℝ, u ≤ P.ron2 w → switchF P.cutoff2 (P.ron2 w) (P.swdenom w) u = 1) ∧
    switchF P.cutoff2 (P.ron2 w) (P.swdenom w) P.cutoff2 = 0 ∧
    (∀ u : ℝ, P.cutoff2 < u → switchF P.cutoff2 (P.ron2 w) (P.swdenom w) u = 0 ∧
        dswitchF P.cutoff2 (P.ron2 w) (P.swdenom w) u = 0) ∧
    (∀ u : ℝ, (switchPair P.sig2 P.foureps P.cutoff2 (P.ron2 w) (P.swdenom w) u).1
        = switchF P.cutoff2 (P.ron2 w) (P.swdenom w) u * lj P.sig2 P.foureps u) ∧
    Set.EqOn (switchF P.cutoff2 (P.ron2 w) (P.swdenom w))
      (swpoly P.cutoff2 (P.ron2 w) (P.swdenom w)) (Set.Icc (P.ron2 w) P.cutoff2) ∧
    ContinuousOn (switchF P.cutoff2 (P.ron2 w) (P.swdenom w)) (Set.Icc (P.ron2 w) P.cutoff2) ∧
    (∀ u : ℝ, P.ron2 w < u → u < P.cutoff2 →
      HasDerivAt (switchF P.cutoff2 (P.ron2 w) (P.swdenom w))
        (-(dswitchF P.cutoff2 (P.ron2 w) (P.swdenom w) u) / 2) u) ∧
    (∀ u : ℝ, u ≠ 0 → u ≠ P.cutoff2 → u ≠ P.ron2 w →
      HasDerivAt (fun v => (switchPair P.sig2 P.foureps P.cutoff2 (P.ron2 w) (P.swdenom w) v).1)
        (-(switchPair P.sig2 P.foureps P.cutoff2 (P.ron2 w) (P.swdenom w) u).2 / 2) u) := by
  have hc : 0 < P.cutoff := lt_of_lt_of_le hw hwc
  have hcw0 : 0 ≤ P.cutoff - w := sub_nonneg.mpr hwc
  have hlt : P.ron2 w < P.cutoff2 := by
    rw [Params.ron2, Params.cutoff2]
    exact pow_lt_pow_left₀ (by linarith) hcw0 (by norm_num)
  have hle : P.ron2 w ≤ P.cutoff2 := hlt.le
  have hdenomne : P.cutoff2 - P.ron2 w ≠ 0 := by linarith
  have hEq : Set.EqOn (switchF P.cutoff2 (P.ron2 w) (P.swdenom w))
      (swpoly P.cutoff2 (P.ron2 w) (P.swdenom w)) (Set.Icc (P.ron2 w) P.cutoff2) := by
    intro u hu
    rcases eq_or_lt_of_le hu.1 with heq | hgt
    · rw [switchF_of_low _ _ _ _ (not_lt.mpr (le_trans heq.symm.le hle))
        (not_lt.mpr heq.symm.le), ← heq, swpoly, Params.swdenom]
      field_simp
      ring
    · exact switchF_of_mid _ _ _ _ (not_lt.mpr hu.2) hgt
  have hcont : Continuous (swpoly P.cutoff2 (P.ron2 w) (P.swdenom w)) := by
    unfold swpoly
    fun_prop
  refine ⟨?_, ?_, ?_, switchPair_fst _ _ _ _ _, hEq, hcont.continuousOn.congr hEq, ?_, ?_⟩
  · intro u hu
    exact switchF_of_low _ _ _ _ (not_lt.mpr (le_trans hu hle)) (not_lt.mpr hu)
  · rw [switchF_of_mid _ _ _ _ (lt_irrefl _) hlt, swpoly]
    ring
  · intro u hu
    exact ⟨switchF_of_lt _ _ _ _ hu, dswitchF_of_lt _ _ _ _ hu⟩
  · intro u h1 h2
    exact hasDerivAt_switchF _ _ _ h1 h2
  · intro u h0 hc2 ha
    exact hasDerivAt_switchPair_fst _ _ _ _ _ h0 hc2 ha


theorem switch_factor_spec_witness :
    (0:ℝ) < 1/2 ∧ (1/2:ℝ) ≤ (Params.mk (1/2) 1 2 (1/200) 5 10 1 : Params ℝ).cutoff ∧
    ((∀ u : ℝ, u ≤ (Params.mk (1/2) 1 2 (1/200) 5 10 1 : Params ℝ).ron2 (1/2) →
        switchF (Params.mk (1/2) 1 2 (1/200) 5 10 1 : Params ℝ).cutoff2 ((Params.mk (1/2) 1 2 (1/200) 5 10 1 : Params ℝ).ron2 (1/2)) ((Params.mk (1/2) 1 2 (1/200) 5 10 1 : Params ℝ).swdenom (1/2)) u = 1) ∧
      switchF (Params.mk (1/2) 1 2 (1/200) 5 10 1 : Params ℝ).cutoff2 ((Params.mk (1/2) 1 2 (1/200) 5 10 1 : Params ℝ).ron2 (1/2)) ((Params.mk (1/2) 1 2 (1/200) 5 10 1 : Params ℝ).swdenom (1/2)) (Params.mk (1/2) 1 2 (1/200) 5 10 1 : Params ℝ).cutoff2 = 0 ∧
      (∀ u : ℝ, (Params.mk (1/2) 1 2 (1/200) 5 10 1 : Params ℝ).cutoff2 < u →
          switchF (Params.mk (1/2) 1 2 (1/200) 5 10 1 : Params ℝ).cutoff2 ((Params.mk (1/2) 1 2 (1/200) 5 10 1 : Params ℝ).ron2 (1/2)) ((Params.mk (1/2) 1 2 (1/200) 5 10 1 : Params ℝ).swdenom (1/2)) u = 0 ∧
          dswitchF (Params.mk (1/2) 1 2 (1/200) 5 10 1 : Params ℝ).cutoff2 ((Params.mk (1/2) 1 2 (1/200) 5 10 1 : Params ℝ).ron2 (1/2)) ((Params.mk (1/2) 1 2 (1/200) 5 10 1 : Params ℝ).swdenom (1/2)) u = 0) ∧
      (∀ u : ℝ, (switchPair (Params.mk (1/2) 1 2 (1/200) 5 10 1 : Params ℝ).sig2 (Params.mk (1/2) 1 2 (1/200) 5 10 1 : Params ℝ).foureps (Params.mk (1/2) 1 2 (1/200) 5 10 1 : Params ℝ).cutoff2 ((Params.mk (1/2) 1 2 (1/200) 5 10 1 : Params ℝ).ron2 (1/2))
            ((Params.mk (1/2) 1 2 (1/200) 5 10 1 : Params ℝ).swdenom (1/2)) u).1
          = switchF (Params.mk (1/2) 1 2 (1/200) 5 10 1 : Params ℝ).cutoff2 ((Params.mk (1/2) 1 2 (1/200) 5 10 1 : Params ℝ).ron2 (1/2)) ((Params.mk (1/2) 1 2 (1/200) 5 10 1 : Params ℝ).swdenom (1/2)) u
              * lj (Params.mk (1/2) 1 2 (1/200) 5 10 1 : Params ℝ).sig2 (Params.mk (1/2) 1 2 (1/200) 5 10 1 : Params ℝ).foureps u) ∧
      Set.EqOn (switchF (Params.mk (1/2) 1 2 (1/200) 5 10 1 : Params ℝ).cutoff2 ((Params.mk (1/2) 1 2 (1/200) 5 10 1 : Params ℝ).ron2 (1/2)) ((Params.mk (1/2) 1 2 (1/200) 5 10 1 : Params ℝ).swdenom (1/2)))
        (swpoly (Params.mk (1/2) 1 2 (1/200) 5 10 1 : Params ℝ).cutoff2 ((Params.mk (1/2) 1 2 (1/200) 5 10 1 : Params ℝ).ron2 (1/2)) ((Params.mk (1/2) 1 2 (1/200) 5 10 1 : Params ℝ).swdenom (1/2)))
        (Set.Icc ((Params.mk (1/2) 1 2 (1/200) 5 10 1 : Params ℝ).ron2 (1/2)) (Params.mk (1/2) 1 2 (1/200) 5 10 1 : Params ℝ).cutoff2) ∧
      ContinuousOn (switchF (Params.mk (1/2) 1 2 (1/200) 5 10 1 : Params ℝ).cutoff2 ((Params.mk (1/2) 1 2 (1/200) 5 10 1 : Params ℝ).ron2 (1/2)) ((Params.mk (1/2) 1 2 (1/200) 5 10 1 : Params ℝ).swdenom (1/2)))
        (Set.Icc ((Params.mk (1/2) 1 2 (1/200) 5 10 1 : Params ℝ).ron2 (1/2)) (Params.mk (1/2) 1 2 (1/200) 5 10 1 : Params ℝ).cutoff2) ∧
      (∀ u : ℝ, (Params.mk (1/2) 1 2 (1/200) 5 10 1 : Params ℝ).ron2 (1/2) < u → u < (Params.mk (1/2) 1 2 (1/200) 5 10 1 : Params ℝ).cutoff2 →
        HasDerivAt (switchF (Params.mk (1/2) 1 2 (1/200) 5 10 1 : Params ℝ).cutoff2 ((Params.mk (1/2) 1 2 (1/200) 5 10 1 : Params ℝ).ron2 (1/2)) ((Params.mk (1/2) 1 2 (1/200) 5 10 1 : Params ℝ).swdenom (1/2)))
          (-(dswitchF (Params.mk (1/2) 1 2 (1/200) 5 10 1 : Params ℝ).cutoff2 ((Params.mk (1/2) 1 2 (1/200) 5 10 1 : Params ℝ).ron2 (1/2)) ((Params.mk (1/2) 1 2 (1/200) 5 10 1 : Params ℝ).swdenom (1/2)) u) / 2) u) ∧
      (∀ u : ℝ, u ≠ 0 → u ≠ (Params.mk (1/2) 1 2 (1/200) 5 10 1 : Params ℝ).cutoff2 → u ≠ (Params.mk (1/2) 1 2 (1/200) 5 10 1 : Params ℝ).ron2 (1/2) →
        HasDerivAt (fun v => (switchPair (Params.mk (1/2) 1 2 (1/200) 5 10 1 : Params ℝ).sig2 (Params.mk (1/2) 1 2 (1/200) 5 10 1 : Params ℝ).foureps (Params.mk (1/2) 1 2 (1/200) 5 10 1 : Params ℝ).cutoff2
            ((Params.mk (1/2) 1 2 (1/200) 5 10 1 : Params ℝ).ron2 (1/2)) ((Params.mk (1/2) 1 2 (1/200) 5 10 1 : Params ℝ).swdenom (1/2)) v).1)
          (-(switchPair (Params.mk (1/2) 1 2 (1/200) 5 10 1 : Params ℝ).sig2 (Params.mk (1/2) 1 2 (1/200) 5 10 1 : Params ℝ).foureps (Params.mk (1/2) 1 2 (1/200) 5 10 1 : Params ℝ).cutoff2 ((Params.mk (1/2) 1 2 (1/200) 5 10 1 : Params ℝ).ron2 (1/2))
              ((Params.mk (1/2) 1 2 (1/200) 5 10 1 : Params ℝ).swdenom (1/2)) u).2 / 2) u)) :=
  ⟨by norm_num, by norm_num,
    switch_factor_spec (Params.mk (1/2) 1 2 (1/200) 5 10 1 : Params ℝ) (1/2) (by norm_num) (by norm_num)⟩

end MD
